import Mathlib

/-!
Verification of the git-arborist worktree dashboard core: a shallow embedding
of the row-aggregation and event-dispatch engine (`internal/tui`), the
filesystem-watch path derivation (`internal/watcher`), the worktree discovery
parser (`internal/worktree`) and the git status probe (`internal/gitstatus`),
together with proofs about the claims of the specification.

Paths are modelled as `String` (lists of characters); the Go standard library
functions `path/filepath.Clean`, `Dir`, `Base`, `Join` are modelled on Unix
semantics, character-for-byte faithful on ASCII input (the code only ever
feeds them ASCII-compatible data and the claims only concern ASCII paths).
-/

set_option maxHeartbeats 2000000
set_option maxRecDepth 4000

namespace GitArborist

/-! ## Character-level path utilities (model of Go path/filepath, Unix rules) -/

/-- Split a character list at every character satisfying `p`
(model of `strings.Split` for a one-character separator, and the component
view used by `filepath.Clean`). Always returns at least one (possibly empty)
component. -/
def splitByL (p : Char → Bool) : List Char → List (List Char)
  | [] => [[]]
  | c :: rest =>
    if p c then [] :: splitByL p rest
    else
      match splitByL p rest with
      | g :: gs => (c :: g) :: gs
      | [] => [[c]]

/-- Split at `/` separators. -/
def splitSlash (l : List Char) : List (List Char) := splitByL (fun c => c = '/') l

/-- Join components with single `/` separators (inverse of `splitSlash`). -/
def joinSlash : List (List Char) → List Char
  | [] => []
  | [c] => c
  | c :: rest => c ++ '/' :: joinSlash rest

/-- The `..` path component. -/
def dotdotC : List Char := ['.', '.']

/-- One step of the component processing of `filepath.Clean`: `stack` is the
output buffer seen as a stack of components (head = most recently written).
Mirrors the Go algorithm: empty and `.` components are dropped; `..` pops a
poppable component, is dropped at a root, and is kept for relative paths. -/
def cleanStep (rooted : Bool) (stack : List (List Char)) (c : List Char) : List (List Char) :=
  if c = [] ∨ c = ['.'] then stack
  else if c = dotdotC then
    match stack with
    | [] => if rooted then [] else [dotdotC]
    | top :: below =>
      if rooted then below
      else if top = dotdotC then dotdotC :: top :: below
      else below
  else c :: stack

/-- Does the path begin with `/`? -/
def isRooted : List Char → Bool
  | c :: _ => c = '/'
  | [] => false

/-- Model of Go `filepath.Clean` (Unix): shortest lexically equivalent path. -/
def cleanL (l : List Char) : List Char :=
  if l = [] then ['.']
  else
    let rooted := isRooted l
    let comps := ((splitSlash l).foldl (cleanStep rooted) []).reverse
    if rooted then '/' :: joinSlash comps
    else if comps = [] then ['.'] else joinSlash comps

/-- Model of Go `filepath.Dir` (Unix): everything before the final path
element, cleaned; `.` when there is no separator. -/
def dirL (l : List Char) : List Char :=
  let comps := splitSlash l
  if comps.length ≤ 1 then ['.']
  else cleanL (joinSlash comps.dropLast ++ ['/'])

/-- An empty path component (the text between two adjacent separators). -/
def isEmptyComp (c : List Char) : Bool := c = []

/-- Model of Go `filepath.Base` (Unix): the last path element after
stripping trailing separators; `.` for the empty path, `/` for all-separator
paths. -/
def baseL (l : List Char) : List Char :=
  if l = [] then ['.']
  else
    match (splitSlash l).reverse.dropWhile isEmptyComp with
    | [] => ['/']
    | c :: _ => c

/-- A well-formed path component: non-empty, no separator, not one of the
special names `.` and `..`. -/
def ValidComp (c : List Char) : Prop := c ≠ [] ∧ '/' ∉ c ∧ c ≠ ['.'] ∧ c ≠ dotdotC

/-- The absolute path with the given components:
`pathOfComps [a, b] = "/a/b"`, `pathOfComps [] = "/"`. -/
def pathOfComps (cs : List (List Char)) : List Char := '/' :: joinSlash cs

/-- Cost of one component inside a joined path: its characters plus one
separator. Used to account for `cleanL` never lengthening a path. -/
def compCost (c : List Char) : Nat := c.length + 1

/-- Total cost of a component list. -/
def compsCost (cs : List (List Char)) : Nat := (cs.map compCost).sum

/-- The components `cleanStep` drops without touching the stack. -/
def skippableB (c : List Char) : Bool := c = [] ∨ c = ['.']

namespace filepath

def Clean (s : String) : String := ⟨cleanL s.data⟩

def Dir (s : String) : String := ⟨dirL s.data⟩

def Base (s : String) : String := ⟨baseL s.data⟩

/-- Model of Go `filepath.Join`: join the non-empty elements with `/` and
clean the result; empty when all elements are empty. -/
def Join (parts : List String) : String :=
  let ne := parts.filter (fun s => s ≠ "")
  if ne = [] then "" else Clean ⟨joinSlash (ne.map String.data)⟩

end filepath

/-! ## Go string utilities used by the sources (ASCII model) -/

/-- ASCII whitespace as recognised by Go `unicode.IsSpace` (the sources only
meet ASCII whitespace). -/
def isSpaceChar (c : Char) : Bool :=
  c = ' ' ∨ c = '\t' ∨ c = '\n' ∨ c = '\r' ∨ c = '\x0b' ∨ c = '\x0c'

/-- Model of Go `strings.TrimSpace`. -/
def trimSpace (s : String) : String :=
  ⟨((s.data.dropWhile isSpaceChar).reverse.dropWhile isSpaceChar).reverse⟩

/-- Model of Go `strings.Split` with a one-character separator. -/
def splitOnChar (sep : Char) (s : String) : List String :=
  (splitByL (fun c => c = sep) s.data).map String.mk

/-- Model of Go `strings.Fields`: the maximal runs of non-whitespace. -/
def goFields (s : String) : List String :=
  ((splitByL isSpaceChar s.data).filter (fun c => c ≠ [])).map String.mk

/-- Model of Go `strings.HasPrefix`. -/
def strHasPrefix (s pre : String) : Bool := pre.data.isPrefixOf s.data

/-- Drop the first `n` characters (Go slice `s[n:]` on ASCII input). -/
def strDrop (s : String) (n : Nat) : String := ⟨s.data.drop n⟩

/-- Value of a digit run. -/
def digitsVal (l : List Char) : Nat :=
  l.foldl (fun acc c => acc * 10 + (c.toNat - '0'.toNat)) 0

/-- Model of Go `strconv.Atoi` in the `n, _ := strconv.Atoi(s)` idiom: the
parsed integer, or `0` when the string is not a valid integer (the error is
discarded by the callers; overflow is ignored, the counts involved are tiny). -/
def goAtoi (s : String) : Int :=
  match s.data with
  | [] => 0
  | '-' :: ds => if ds ≠ [] ∧ ds.all Char.isDigit then -(digitsVal ds : Int) else 0
  | '+' :: ds => if ds ≠ [] ∧ ds.all Char.isDigit then (digitsVal ds : Int) else 0
  | ds => if ds.all Char.isDigit then (digitsVal ds : Int) else 0

/-! ## Data model (internal/worktree, internal/gitstatus, internal/agent, internal/pr) -/

namespace worktree

/-- `internal/worktree.Worktree`. -/
structure Worktree where
  Path : String
  Branch : String
deriving DecidableEq, Repr

/-- The line-level loop of `internal/worktree.parsePorcelain`, threading the
`current` record exactly as the Go loop does; the trailing flush is the `[]`
case. -/
def parseLines : List String → Worktree → List Worktree
  | [], current => if current.Path ≠ "" then [current] else []
  | line :: rest, current =>
    if strHasPrefix (trimSpace line) "worktree " then
      parseLines rest ⟨strDrop (trimSpace line) 9, ""⟩
    else if strHasPrefix (trimSpace line) "branch " then
      parseLines rest { current with Branch := filepath.Base (strDrop (trimSpace line) 7) }
    else if trimSpace line = "" then
      if current.Path ≠ "" then current :: parseLines rest ⟨"", ""⟩
      else parseLines rest current
    else parseLines rest current

/-- `internal/worktree.parsePorcelain`. -/
def parsePorcelain (raw : String) : List Worktree :=
  parseLines (splitOnChar '\n' raw) ⟨"", ""⟩

end worktree

namespace gitstatus

/-- `internal/gitstatus.Status`; the Go zero value is all fields `:=`-default. -/
structure Status where
  Clean : Bool := false
  Ahead : Int := 0
  Behind : Int := 0
  Staged : Int := 0
  Unstaged : Int := 0
  Untracked : Int := 0
deriving DecidableEq, Repr

/-- One iteration of the porcelain-line loop inside `gitstatus.Get`. -/
def classifyLine (s : Status) (line : String) : Status :=
  match line.data with
  | x :: y :: _ =>
    if x = '?' ∧ y = '?' then { s with Untracked := s.Untracked + 1 }
    else if x ≠ ' ' ∧ x ≠ '?' then
      let s1 := { s with Staged := s.Staged + 1 }
      if y ≠ ' ' then { s1 with Unstaged := s1.Unstaged + 1 } else s1
    else if y ≠ ' ' then { s with Unstaged := s.Unstaged + 1 }
    else s
  | _ => s

/-- `internal/gitstatus.Get`. The two subprocess invocations
(`git status --porcelain` and `git rev-list --left-right --count`) are
oracles `statusOut` / `revListOut`: `none` models a failing command,
`some out` a successful one with output `out`. -/
def Get (statusOut revListOut : String → Option String) (worktreePath : String) : Status :=
  match statusOut worktreePath with
  | none => {}
  | some out =>
    let lines := splitOnChar '\n' (trimSpace out)
    let s : Status :=
      if lines.length = 1 ∧ lines.headD "" = "" then { Clean := true }
      else lines.foldl classifyLine {}
    match revListOut worktreePath with
    | none => s
    | some out2 =>
      match goFields (trimSpace out2) with
      | [a, b] => { s with Behind := goAtoi a, Ahead := goAtoi b }
      | _ => s

/-- `gitstatus.Status.String()`: the compact human-readable status shown in
the Git Status column. -/
def Status.render (s : Status) : String :=
  if s.Clean ∧ s.Ahead = 0 ∧ s.Behind = 0 then "clean"
  else
    let parts : List String :=
      (if ¬s.Clean then ["dirty"] else ["clean"])
      ++ (if s.Ahead > 0 then ["↑" ++ toString s.Ahead] else [])
      ++ (if s.Behind > 0 then ["↓" ++ toString s.Behind] else [])
      ++ (if s.Staged > 0 then ["+" ++ toString s.Staged ++ " staged"] else [])
      ++ (if s.Untracked > 0 then [toString s.Untracked ++ " untracked"] else [])
    String.intercalate " " parts

end gitstatus

namespace agent

/-- `internal/agent.TMUXRef`. -/
structure TMUXRef where
  Session : String
  Window : Int
  Pane : Int
deriving DecidableEq, Repr

/-- `internal/agent.State`; `UpdatedAt` (a `time.Time` the core never
inspects) is kept as an opaque string. -/
structure State where
  Agent : String
  Status : String
  Detail : String
  UpdatedAt : String
  TMUX : TMUXRef
deriving DecidableEq, Repr

end agent

namespace pr

/-- `internal/pr.PullRequest`. -/
structure PullRequest where
  Number : Int
  State : String
  Title : String
  IsDraft : Bool
deriving DecidableEq, Repr

end pr

/-! ## internal/watcher: path derivation and subscription setup -/

namespace watcher

/-- The git-internal directory names stripped by `deriveWorktreePath`
(`base == ".git" || base == "refs" || base == "heads" || base == "remotes" ||
base == "worktrees"` in the source). -/
def gitInternalNames : List (List Char) :=
  [".git".data, "refs".data, "heads".data, "remotes".data, "worktrees".data]

/-- The `for { ... }` ancestor-stripping loop of `deriveWorktreePath` for the
git domain, with an explicit iteration bound: the Go loop is unbounded, and
`gitAncestorFuel_returns` below proves the bound `dir.length + 1` is never
exhausted, so the bounded loop is the loop. -/
def gitAncestorFuel : Nat → List Char → Option (List Char)
  | 0, _ => none
  | fuel + 1, dir =>
    if baseL dir ∈ gitInternalNames then gitAncestorFuel fuel (dirL dir)
    else some dir

/-- `internal/watcher.deriveWorktreePath`: owner derivation from the changed
path, purely string surgery (no filesystem access is modelled because the
source performs none). -/
def deriveWorktreePath (changedPath kind : String) : String :=
  if kind = "agent" then filepath.Dir (filepath.Dir (filepath.Dir changedPath))
  else
    let d := filepath.Dir changedPath
    match gitAncestorFuel (d.data.length + 1) d.data with
    | some r => ⟨r⟩
    | none => d

/-- The domain classification in `watcher.loop()`: the sentinel filename
`state.json` marks the agent domain, anything else is git. -/
def classifyKind (changedName : String) : String :=
  if filepath.Base changedName = "state.json" then "agent" else "git"

/-- The linked-worktree redirect resolution inside `WatchWorktree`: when the
`.git` metadata root is a file, its content is sliced past the first 8 bytes
(`"gitdir: "`) and cleaned; contents of at most 8 bytes are ignored. -/
def resolveRedirect (data : String) : Option String :=
  if data.length > 8 then some (filepath.Clean (strDrop data 8)) else none

/-- `watcher.WatchWorktree`: the ordered list of directory paths handed to
`fsnotify.Add` for one worktree. `stat` models `os.Stat` (`none` = error,
`some isDir` = success), `readFileFn` models `os.ReadFile`. -/
def watchPaths (stat : String → Option Bool) (readFileFn : String → Option String)
    (worktreePath : String) : List String :=
  let agentDir := filepath.Join [worktreePath, ".sideby", "agent"]
  let a : List String :=
    match stat agentDir with
    | some _ => [agentDir]
    | none => []
  let gitDir := filepath.Join [worktreePath, ".git"]
  match stat gitDir with
  | none => a
  | some true =>
    let refsDir := filepath.Join [gitDir, "refs"]
    a ++ [gitDir] ++
      (match stat refsDir with
       | some _ =>
         let headsDir := filepath.Join [refsDir, "heads"]
         [refsDir] ++ (match stat headsDir with | some _ => [headsDir] | none => [])
       | none => [])
  | some false =>
    match readFileFn gitDir with
    | some data =>
      a ++ (match resolveRedirect data with | some g => [g] | none => [])
    | none => a

end watcher

/-! ## internal/tui: the interaction engine -/

namespace tui

/-- `tui.Row`. -/
structure Row where
  Worktree : worktree.Worktree
  GitStatus : gitstatus.Status
  PR : Option pr.PullRequest
  AgentState : Option agent.State
deriving DecidableEq, Repr

/-- `tui.Model`. `watcher` is the set of active filesystem subscriptions of
the current `watcher.Watcher` (`none` = no live watcher, matching a nil or
closed watcher); `sendFnSet` records whether `SetSendFn` has been called
(`main` wires it before `Run`, so it is true in every state the event loop
sees). `repoRoot` is carried by the discovery oracle of `Env` instead of a
field. -/
structure Model where
  rows : List Row
  cursor : Nat
  sendFnSet : Bool
  watcher : Option (List String)
  width : Int
  height : Int
  message : String
  confirming : Bool
deriving DecidableEq, Repr

/-- The collaborator world visible to one `Update` call: every subprocess and
filesystem interaction of the core, as pure oracles. A trace may use a
different `Env` at each event, modelling an externally changing world. -/
structure Env where
  discover : Except String (List worktree.Worktree)
  statusOut : String → Option String
  revListOut : String → Option String
  prOf : String → Option pr.PullRequest
  agentOf : String → Option agent.State
  removeErr : String → Option String
  jumpErr : String → Int → Option String
  findErr : String → Option String
  gitShortOut : String → Option String
  newWatcherOk : Bool
  stat : String → Option Bool
  readFileFn : String → Option String

/-- The side-effecting collaborator invocations an `Update` call performs, in
order. -/
inductive Effect where
  | killWindow (session : String) (window : Int)
  | killWindowByPath (path : String)
  | removeWorktree (path : String)
  | jumpToWindow (session : String) (window : Int)
  | findWindowByPath (path : String)
  | openPRInBrowser (path : String)
  | gitStatusShort (path : String)
deriving DecidableEq, Repr

/-- The external events consumed by `Update`. -/
inductive Msg where
  | windowSize (w h : Int)
  | key (k : String)
  | refresh
  | fileChanged (worktreePath kind : String)
deriving DecidableEq, Repr

/-- The row `refreshAll` assembles for one discovered worktree. -/
def mkRow (env : Env) (wt : worktree.Worktree) : Row :=
  { Worktree := wt
    GitStatus := gitstatus.Get env.statusOut env.revListOut wt.Path
    PR := env.prOf wt.Path
    AgentState := env.agentOf wt.Path }

/-- `tui.Model.refreshAll`: the full rebuild. On discovery error only the
status message changes; on success the rows are rebuilt in discovery order,
the cursor is clamped, the old watcher is closed and (when watcher creation
succeeds) a fresh subscription set is created from the new rows. -/
def refreshAll (env : Env) (m : Model) : Model :=
  match env.discover with
  | .error e => { m with message := "discovery error: " ++ e }
  | .ok wts =>
    let rows := wts.map (mkRow env)
    let cursor := if rows.length ≤ m.cursor then rows.length - 1 else m.cursor
    let w : Option (List String) :=
      if m.sendFnSet then
        if env.newWatcherOk then
          some (rows.flatMap fun r => watcher.watchPaths env.stat env.readFileFn r.Worktree.Path)
        else none
      else none
    { m with rows := rows, cursor := cursor, watcher := w }

/-- The single-row patch `refreshRow` applies to a matching row: the `switch
kind` statement of the source (a switch on a string is sequential equality
testing). -/
def patchRow (env : Env) (wtPath kind : String) (row : Row) : Row :=
  if kind = "agent" then { row with AgentState := env.agentOf wtPath }
  else if kind = "git" then
    { row with GitStatus := gitstatus.Get env.statusOut env.revListOut wtPath }
  else { row with GitStatus := gitstatus.Get env.statusOut env.revListOut wtPath,
                  AgentState := env.agentOf wtPath }

/-- `tui.Model.refreshRow`, as a function of the row list: patch the first
row whose path matches, leave everything else untouched. -/
def refreshRowList (env : Env) : List Row → String → String → List Row
  | [], _, _ => []
  | row :: rest, wtPath, kind =>
    if row.Worktree.Path = wtPath then patchRow env wtPath kind row :: rest
    else row :: refreshRowList env rest wtPath kind

/-- The tmux-window kill attempt preceding a confirmed removal: by
multiplexer reference when the agent state carries one, by path search
otherwise (both errors discarded by the source). -/
def killEffects (row : Row) : List Effect :=
  match row.AgentState with
  | some st =>
    if st.TMUX.Session ≠ "" then [.killWindow st.TMUX.Session st.TMUX.Window]
    else [.killWindowByPath row.Worktree.Path]
  | none => [.killWindowByPath row.Worktree.Path]

/-- `tui.Model.handleKey`. Returns the new model, the collaborator calls
made, and whether the program quits (`tea.Quit`). The local variables of the source
(`row`, the early `m.confirming = false` write) are inlined. -/
def handleKey (env : Env) (m : Model) (k : String) : Model × List Effect × Bool :=
  if m.confirming then
    if k = "d" then
      if h : m.cursor < m.rows.length then
        match env.removeErr (m.rows.get ⟨m.cursor, h⟩).Worktree.Path with
        | some err =>
          ({ m with confirming := false, message := "delete failed: " ++ err },
           killEffects (m.rows.get ⟨m.cursor, h⟩) ++
             [.removeWorktree (m.rows.get ⟨m.cursor, h⟩).Worktree.Path], false)
        | none =>
          (refreshAll env
             { m with confirming := false, message := "Deleted worktree \x27" ++ (m.rows.get ⟨m.cursor, h⟩).Worktree.Branch ++ "\x27" },
           killEffects (m.rows.get ⟨m.cursor, h⟩) ++
             [.removeWorktree (m.rows.get ⟨m.cursor, h⟩).Worktree.Path], false)
      else ({ m with confirming := false }, [], false)
    else ({ m with confirming := false, message := "" }, [], false)
  else if k = "q" ∨ k = "ctrl+c" then
    ({ m with watcher := none }, [], true)
  else if k = "k" ∨ k = "up" then
    (if 0 < m.cursor then { m with cursor := m.cursor - 1 } else m, [], false)
  else if k = "j" ∨ k = "down" then
    (if m.cursor < m.rows.length - 1 then { m with cursor := m.cursor + 1 } else m, [], false)
  else if k = "r" then
    ({ refreshAll env { m with message := "Refreshing..." } with message := "" }, [], false)
  else if k = "enter" then
    if h : m.cursor < m.rows.length then
      match (m.rows.get ⟨m.cursor, h⟩).AgentState with
      | some st =>
        if st.TMUX.Session ≠ "" then
          (match env.jumpErr st.TMUX.Session st.TMUX.Window with
           | some err => { m with message := "tmux jump failed: " ++ err }
           | none => m, [Effect.jumpToWindow st.TMUX.Session st.TMUX.Window], false)
        else
          (match env.findErr (m.rows.get ⟨m.cursor, h⟩).Worktree.Path with
           | some err => { m with message := "tmux: " ++ err }
           | none => m,
           [Effect.findWindowByPath (m.rows.get ⟨m.cursor, h⟩).Worktree.Path], false)
      | none =>
        (match env.findErr (m.rows.get ⟨m.cursor, h⟩).Worktree.Path with
         | some err => { m with message := "tmux: " ++ err }
         | none => m,
         [Effect.findWindowByPath (m.rows.get ⟨m.cursor, h⟩).Worktree.Path], false)
    else (m, [], false)
  else if k = "o" then
    if h : m.cursor < m.rows.length then
      match (m.rows.get ⟨m.cursor, h⟩).PR with
      | some _ => (m, [Effect.openPRInBrowser (m.rows.get ⟨m.cursor, h⟩).Worktree.Path], false)
      | none => ({ m with message := "No PR for this branch" }, [], false)
    else (m, [], false)
  else if k = "g" then
    if h : m.cursor < m.rows.length then
      (match env.gitShortOut (m.rows.get ⟨m.cursor, h⟩).Worktree.Path with
       | some out => { m with message := out }
       | none => m,
       [Effect.gitStatusShort (m.rows.get ⟨m.cursor, h⟩).Worktree.Path], false)
    else (m, [], false)
  else if k = "d" then
    if m.cursor = 0 then
      ({ m with message := "Cannot delete the main worktree" }, [], false)
    else if h : m.cursor < m.rows.length then
      ({ m with confirming := true,
                message := "Delete worktree \x27" ++ (m.rows.get ⟨m.cursor, h⟩).Worktree.Branch
                  ++ "\x27? Press d to confirm, any other key to cancel" }, [], false)
    else (m, [], false)
  else (m, [], false)

/-- `tui.Model.Update`: the single-threaded event dispatch. -/
def update (env : Env) (m : Model) : Msg → Model × List Effect × Bool
  | .windowSize w h => ({ m with width := w, height := h }, [], false)
  | .key k => handleKey env m k
  | .refresh => (refreshAll env m, [], false)
  | .fileChanged p kind => ({ m with rows := refreshRowList env m.rows p kind }, [], false)

/-- The model constructed by `tui.NewModel` after `main` has wired
`SetSendFn` (which happens before the event loop starts). -/
def initModel : Model :=
  { rows := [], cursor := 0, sendFnSet := true, watcher := none,
    width := 0, height := 0, message := "", confirming := false }

/-- Run the event loop over an ordered trace of (world, event) pairs,
collecting the emitted collaborator calls. -/
def runFrom (m : Model) : List (Env × Msg) → Model × List Effect
  | [] => (m, [])
  | (env, msg) :: rest =>
    let s := update env m msg
    let r := runFrom s.1 rest
    (r.1, s.2.1 ++ r.2)

/-- The states the event loop can reach from startup, under arbitrary
collaborator worlds and event orders. -/
inductive Reachable : Model → Prop where
  | init : Reachable initModel
  | step (env : Env) (msg : Msg) {m : Model} : Reachable m → Reachable (update env m msg).1

/-- The cursor-bounds invariant of the spec: `cursorIndex` strictly inside
the row table whenever it is non-empty, and pinned to 0 when it is empty. -/
def CursorInv (m : Model) : Prop :=
  (m.rows = [] → m.cursor = 0) ∧ (m.rows ≠ [] → m.cursor < m.rows.length)

/-- A concrete collaborator world for witnesses and counterexamples:
discovery yields `wts`, every subprocess and filesystem probe fails or is
absent, watcher creation fails, removal succeeds. -/
def envOf (wts : List worktree.Worktree) : Env :=
  { discover := Except.ok wts
    statusOut := fun _ => none
    revListOut := fun _ => none
    prOf := fun _ => none
    agentOf := fun _ => none
    removeErr := fun _ => none
    jumpErr := fun _ _ => none
    findErr := fun _ => none
    gitShortOut := fun _ => none
    newWatcherOk := false
    stat := fun _ => none
    readFileFn := fun _ => none }

/-- A world where discovery fails with message `e`. -/
def envErr (e : String) : Env := { envOf [] with discover := Except.error e }

/-- The three worktrees of the spec scenarios. -/
def wtsABC : List worktree.Worktree :=
  [⟨"/r", "main"⟩, ⟨"/r-featA", "featA"⟩, ⟨"/r-featB", "featB"⟩]

/-- The failing event trace for the primary-row protection claim: discover
three worktrees, move the cursor to row 2, request deletion, then a refresh
event whose discovery now returns only the primary worktree is processed
while the confirmation is pending (clamping the cursor to row 0), and the
confirm key is pressed. -/
def traceC1 : List (Env × Msg) :=
  [(envOf wtsABC, Msg.refresh), (envOf wtsABC, Msg.key "j"), (envOf wtsABC, Msg.key "j"),
   (envOf wtsABC, Msg.key "d"), (envOf [⟨"/r", "main"⟩], Msg.refresh),
   (envOf [⟨"/r", "main"⟩], Msg.key "d")]

/-- A world with a live watch facility and a primary worktree whose git
metadata root is a directory with a refs subdirectory. -/
def envWatch : Env :=
  { envOf [⟨"/r", "main"⟩] with
    newWatcherOk := true
    stat := fun p => if p = "/r/.git" ∨ p = "/r/.git/refs" then some true else none }

/-- A world where the status probe fails for `/r-featB` but succeeds (clean)
for `/r`. -/
def envProbeFail : Env :=
  { envOf [⟨"/r", "main"⟩, ⟨"/r-featB", "featB"⟩] with
    statusOut := fun p => if p = "/r-featB" then none else some "" }

/-- A two-row table fixture. -/
def rowsTwo : List Row :=
  [⟨⟨"/r", "main"⟩, {}, none, none⟩, ⟨⟨"/r-featA", "featA"⟩, {}, none, none⟩]

/-- A model fixture with the cursor on a row whose recorded branch name is
the truncated `login`. -/
def mDelFixture : Model :=
  { initModel with
    rows := [⟨⟨"/r", "main"⟩, {}, none, none⟩, ⟨⟨"/r-feat", "login"⟩, {}, none, none⟩]
    cursor := 1 }

end tui

/-! ## Path algebra: split/join lemmas -/

theorem splitByL_ne_nil (p : Char → Bool) (l : List Char) : splitByL p l ≠ [] := by
  cases l with
  | nil => simp [splitByL]
  | cons c t =>
    simp only [splitByL]
    split
    · simp
    · split <;> simp

theorem splitSlash_cons_slash (t : List Char) :
    splitSlash ('/' :: t) = [] :: splitSlash t := by
  simp [splitSlash, splitByL]

theorem splitSlash_cons_other {c : Char} (hc : c ≠ '/') (t : List Char) :
    splitSlash (c :: t) =
      match splitSlash t with
      | g :: gs => (c :: g) :: gs
      | [] => [[c]] := by
  simp [splitSlash, splitByL, hc]

theorem joinSlash_cons_cons (a b : List Char) (l : List (List Char)) :
    joinSlash (a :: b :: l) = a ++ '/' :: joinSlash (b :: l) := rfl

theorem joinSlash_split (l : List Char) : joinSlash (splitSlash l) = l := by
  induction l with
  | nil => rfl
  | cons c t ih =>
    by_cases hc : c = '/'
    · subst hc
      rw [splitSlash_cons_slash]
      rcases hsp : splitSlash t with _ | ⟨g, gs⟩
      · exact absurd hsp (splitByL_ne_nil _ _)
      · rw [joinSlash_cons_cons, ← hsp, ih]
        rfl
    · rw [splitSlash_cons_other hc]
      rcases hsp : splitSlash t with _ | ⟨g, gs⟩
      · exact absurd hsp (splitByL_ne_nil _ _)
      · rw [hsp] at ih
        cases gs with
        | nil =>
          simpa [joinSlash] using congrArg (c :: ·) ih
        | cons g2 gs2 =>
          rw [joinSlash_cons_cons] at ih ⊢
          simpa [List.cons_append] using congrArg (c :: ·) ih

theorem splitSlash_no_slash (l : List Char) : ∀ c ∈ splitSlash l, '/' ∉ c := by
  induction l with
  | nil => simp [splitSlash, splitByL]
  | cons c t ih =>
    by_cases hc : c = '/'
    · subst hc
      rw [splitSlash_cons_slash]
      intro g hg
      rcases List.mem_cons.mp hg with hg1 | hg1
      · simp [hg1]
      · exact ih g hg1
    · rw [splitSlash_cons_other hc]
      rcases hsp : splitSlash t with _ | ⟨g, gs⟩
      · exact absurd hsp (splitByL_ne_nil _ _)
      · intro d hd
        rcases List.mem_cons.mp hd with hd1 | hd1
        · subst hd1
          intro hmem
          rcases List.mem_cons.mp hmem with hmem1 | hmem1
          · exact hc hmem1.symm
          · exact ih g (by rw [hsp]; exact List.mem_cons_self g gs) hmem1
        · exact ih d (by rw [hsp]; exact List.mem_cons_of_mem g hd1)

theorem splitSlash_pure {c : List Char} (h : '/' ∉ c) : splitSlash c = [c] := by
  induction c with
  | nil => rfl
  | cons a t ih =>
    have ha : a ≠ '/' := fun hh => h (hh ▸ List.mem_cons_self a t)
    rw [splitSlash_cons_other ha, ih (fun hm => h (List.mem_cons_of_mem a hm))]

theorem splitSlash_append_slash {c : List Char} (h : '/' ∉ c) (r : List Char) :
    splitSlash (c ++ '/' :: r) = c :: splitSlash r := by
  induction c with
  | nil => simpa using splitSlash_cons_slash r
  | cons a t ih =>
    have ha : a ≠ '/' := fun hh => h (hh ▸ List.mem_cons_self a t)
    rw [List.cons_append, splitSlash_cons_other ha,
        ih (fun hm => h (List.mem_cons_of_mem a hm))]

theorem splitSlash_join {cs : List (List Char)} (hne : cs ≠ [])
    (hns : ∀ c ∈ cs, '/' ∉ c) : splitSlash (joinSlash cs) = cs := by
  induction cs with
  | nil => exact absurd rfl hne
  | cons c rest ih =>
    cases rest with
    | nil => exact splitSlash_pure (hns c (List.mem_cons_self c []))
    | cons d ds =>
      rw [joinSlash_cons_cons,
          splitSlash_append_slash (hns c (List.mem_cons_self c _)),
          ih (by simp) (fun x hx => hns x (List.mem_cons_of_mem c hx))]

theorem joinSlash_snoc {as : List (List Char)} (hne : as ≠ []) (b : List Char) :
    joinSlash (as ++ [b]) = joinSlash as ++ '/' :: b := by
  induction as with
  | nil => exact absurd rfl hne
  | cons a rest ih =>
    cases rest with
    | nil => rfl
    | cons d ds =>
      have ih' := ih (by simp)
      calc joinSlash ((a :: d :: ds) ++ [b])
          = a ++ '/' :: joinSlash ((d :: ds) ++ [b]) := rfl
        _ = a ++ '/' :: (joinSlash (d :: ds) ++ '/' :: b) := by rw [ih']
        _ = joinSlash (a :: d :: ds) ++ '/' :: b := by
              rw [joinSlash_cons_cons, List.append_assoc]
              simp

theorem joinSlash_length {cs : List (List Char)} (hne : cs ≠ []) :
    (joinSlash cs).length + 1 = compsCost cs := by
  induction cs with
  | nil => exact absurd rfl hne
  | cons c rest ih =>
    cases rest with
    | nil => simp [joinSlash, compsCost, compCost]
    | cons d ds =>
      rw [joinSlash_cons_cons]
      have := ih (by simp)
      simp only [compsCost, List.map_cons, List.sum_cons, compCost] at this ⊢
      simp only [List.length_append, List.length_cons]
      omega

/-! ## Path algebra: cleanL never lengthens a path -/

theorem compsCost_nil : compsCost [] = 0 := rfl

theorem compsCost_cons (c : List Char) (cs : List (List Char)) :
    compsCost (c :: cs) = compCost c + compsCost cs := by
  simp [compsCost]

theorem compsCost_append (a b : List (List Char)) :
    compsCost (a ++ b) = compsCost a + compsCost b := by
  simp [compsCost]

theorem compsCost_reverse (cs : List (List Char)) :
    compsCost cs.reverse = compsCost cs := by
  simp [compsCost, List.map_reverse, List.sum_reverse]

theorem skippableB_eq_true {c : List Char} :
    skippableB c = true ↔ (c = [] ∨ c = ['.']) := by
  simp [skippableB]

theorem cleanStep_cost (rooted : Bool) (stack : List (List Char)) (c : List Char) :
    compsCost (cleanStep rooted stack c) + (if skippableB c then 1 else 0) ≤
      compsCost stack + compCost c := by
  have hcc : 1 ≤ compCost c := Nat.le_add_left 1 c.length
  by_cases hsk : c = [] ∨ c = ['.']
  · have hb : skippableB c = true := skippableB_eq_true.mpr hsk
    simp only [cleanStep, if_pos hsk, hb, if_true]
    omega
  · have hb : skippableB c = false := by
      rcases hbc : skippableB c with _ | _
      · rfl
      · exact absurd (skippableB_eq_true.mp hbc) hsk
    simp only [cleanStep, if_neg hsk, hb, Bool.false_eq_true, if_false]
    by_cases hdd : c = dotdotC
    · rw [if_pos hdd]
      have hcdd : compCost c = 3 := by rw [hdd]; rfl
      cases stack with
      | nil =>
        cases rooted
        · simp only [Bool.false_eq_true, if_false]
          rw [hdd]
          simp [compsCost_cons, compsCost_nil, compCost, dotdotC]
        · simp [compsCost_nil]
      | cons top below =>
        cases rooted
        · simp only [Bool.false_eq_true, if_false]
          by_cases htop : top = dotdotC
          · rw [if_pos htop]
            simp only [compsCost_cons]
            have hdd3 : compCost dotdotC = 3 := rfl
            omega
          · rw [if_neg htop, compsCost_cons]
            omega
        · simp only [if_true]
          rw [compsCost_cons]
          omega
    · rw [if_neg hdd, compsCost_cons]
      omega

theorem foldl_cleanStep_cost (rooted : Bool) (cs : List (List Char)) :
    ∀ stack : List (List Char),
      compsCost (List.foldl (cleanStep rooted) stack cs) + cs.countP skippableB ≤
        compsCost stack + compsCost cs := by
  induction cs with
  | nil => intro stack; simp
  | cons c rest ih =>
    intro stack
    have h1 := cleanStep_cost rooted stack c
    have h2 := ih (cleanStep rooted stack c)
    rw [List.foldl_cons, List.countP_cons, compsCost_cons]
    omega

theorem isRooted_splitSlash {l : List Char} (hr : isRooted l = true) :
    ∃ t, splitSlash l = [] :: splitSlash t := by
  cases l with
  | nil => simp [isRooted] at hr
  | cons c t =>
    have hc : c = '/' := by simpa [isRooted] using hr
    subst hc
    exact ⟨t, splitSlash_cons_slash t⟩

theorem isRooted_countP {l : List Char} (hr : isRooted l = true) :
    1 ≤ (splitSlash l).countP skippableB := by
  obtain ⟨t, ht⟩ := isRooted_splitSlash hr
  rw [ht, List.countP_cons]
  have : skippableB ([] : List Char) = true := rfl
  simp [this]

theorem cleanL_eq {l : List Char} (hne : l ≠ []) :
    cleanL l =
      if isRooted l then
        '/' :: joinSlash ((splitSlash l).foldl (cleanStep (isRooted l)) []).reverse
      else if ((splitSlash l).foldl (cleanStep (isRooted l)) []).reverse = [] then ['.']
      else joinSlash ((splitSlash l).foldl (cleanStep (isRooted l)) []).reverse := by
  simp only [cleanL, if_neg hne]

theorem cleanL_master {l : List Char} (hne : l ≠ []) :
    (cleanL l).length = 1 ∨
      (cleanL l).length + (splitSlash l).countP skippableB ≤
        l.length + (if isRooted l then 1 else 0) := by
  have hsne : splitSlash l ≠ [] := splitByL_ne_nil _ _
  have hcost := foldl_cleanStep_cost (isRooted l) (splitSlash l) []
  have hlen : l.length + 1 = compsCost (splitSlash l) := by
    have := joinSlash_length hsne
    rwa [joinSlash_split] at this
  rw [compsCost_nil] at hcost
  set S := ((splitSlash l).foldl (cleanStep (isRooted l)) []).reverse with hS
  have hSc : compsCost S = compsCost ((splitSlash l).foldl (cleanStep (isRooted l)) []) :=
    compsCost_reverse _
  rcases hS0 : S with _ | ⟨s0, Ss⟩
  · left
    rw [cleanL_eq hne, ← hS, hS0]
    cases hr : isRooted l
    · simp [joinSlash]
    · simp [joinSlash]
  · have hSne : S ≠ [] := by rw [hS0]; simp
    have hjS := joinSlash_length hSne
    right
    rw [cleanL_eq hne, ← hS]
    cases hr : isRooted l
    · rw [if_neg (by simp [hr]), if_neg (by rw [hS0]; simp)]
      simp only [Bool.false_eq_true, if_false]
      omega
    · rw [if_pos (by simp [hr])]
      simp only [if_true, List.length_cons]
      omega

theorem countP_skippable_replicate (n : Nat) :
    List.countP skippableB (List.replicate n ([] : List Char)) = n := by
  induction n with
  | zero => rfl
  | succ k ih => simp [List.replicate_succ, List.countP_cons, ih, skippableB]

theorem compsCost_replicate_nil (n : Nat) :
    compsCost (List.replicate n ([] : List Char)) = n := by
  induction n with
  | zero => rfl
  | succ k ih =>
    simp only [List.replicate_succ, compsCost_cons, ih, compCost, List.length_nil]
    omega

theorem cleanL_le {l : List Char} (hne : l ≠ []) : (cleanL l).length ≤ l.length := by
  have hlp : 1 ≤ l.length := by
    cases l with
    | nil => exact absurd rfl hne
    | cons a t => simp
  rcases cleanL_master hne with h | h
  · omega
  · cases hr : isRooted l
    · rw [hr] at h; simp at h; omega
    · have hcp := isRooted_countP hr
      rw [hr] at h; simp at h; omega

/-! ## Path algebra: baseL decomposition and the Dir decrease property -/

theorem baseL_decomp {l c : List Char} (hne : l ≠ []) (hc : baseL l = c)
    (hcsl : '/' ∉ c) :
    ∃ pre e, splitSlash l = pre ++ c :: List.replicate e [] := by
  have hb : baseL l =
      match (splitSlash l).reverse.dropWhile isEmptyComp with
      | [] => ['/']
      | c0 :: _ => c0 := by
    simp only [baseL, if_neg hne]
  rcases hd : (splitSlash l).reverse.dropWhile isEmptyComp with _ | ⟨c0, rest⟩
  · rw [hd] at hb
    simp only at hb
    rw [hb] at hc
    exact absurd (hc ▸ List.mem_cons_self '/' []) hcsl
  · rw [hd] at hb
    simp only at hb
    have hc0 : c0 = c := by rw [← hb, hc]
    subst hc0
    have hsplit : (splitSlash l).reverse =
        ((splitSlash l).reverse.takeWhile isEmptyComp) ++ (c0 :: rest) := by
      conv_lhs => rw [← @List.takeWhile_append_dropWhile _ isEmptyComp
        ((splitSlash l).reverse)]
      rw [hd]
    have hrep : (splitSlash l).reverse.takeWhile isEmptyComp =
        List.replicate ((splitSlash l).reverse.takeWhile isEmptyComp).length [] := by
      apply List.eq_replicate_of_mem
      intro b hb2
      have hpb := List.mem_takeWhile_imp hb2
      simpa [isEmptyComp] using hpb
    set K := ((splitSlash l).reverse.takeWhile isEmptyComp).length with hKdef
    have h1 : (splitSlash l).reverse = List.replicate K [] ++ (c0 :: rest) := by
      rw [← hrep]; exact hsplit
    refine ⟨rest.reverse, K, ?_⟩
    have h3 : splitSlash l = (List.replicate K [] ++ (c0 :: rest)).reverse := by
      rw [← h1, List.reverse_reverse]
    rw [h3, List.reverse_append, List.reverse_cons, List.reverse_replicate]
    simp [List.append_assoc]

theorem dirL_eq (l : List Char) :
    dirL l = if (splitSlash l).length ≤ 1 then ['.']
      else cleanL (joinSlash (splitSlash l).dropLast ++ ['/']) := rfl

theorem dirL_decrease {l : List Char} (h : baseL l ∈ watcher.gitInternalNames) :
    (dirL l).length < l.length := by
  have hnames : ∀ c ∈ watcher.gitInternalNames,
      4 ≤ c.length ∧ c ≠ [] ∧ '/' ∉ c ∧ skippableB c = false := by decide
  have hl : l ≠ [] := by
    intro hnil
    rw [hnil] at h
    exact absurd h (by decide)
  obtain ⟨h4, hcne, hcsl, hcsk⟩ := hnames _ h
  obtain ⟨pre, e, hsp⟩ := baseL_decomp hl rfl hcsl
  have hsne : splitSlash l ≠ [] := splitByL_ne_nil _ _
  have hlen : l.length + 1 = compsCost (splitSlash l) := by
    have hj := joinSlash_length hsne
    rwa [joinSlash_split] at hj
  rw [dirL_eq]
  by_cases hn : (splitSlash l).length ≤ 1
  · rw [if_pos hn]
    have hlsp := congrArg List.length hsp
    simp only [List.length_append, List.length_cons, List.length_replicate] at hlsp
    have hpe : pre.length = 0 ∧ e = 0 := by omega
    have hpre0 : pre = [] := List.length_eq_zero.mp hpe.1
    rw [hpre0, hpe.2] at hsp
    simp only [List.replicate, List.nil_append] at hsp
    have hleq : l = baseL l := by
      have hj := joinSlash_split l
      rw [hsp] at hj
      simpa [joinSlash] using hj.symm
    have : l.length = (baseL l).length := by rw [← hleq]
    simp only [List.length_cons, List.length_nil]
    omega
  · rw [if_neg hn]
    push_neg at hn
    cases e with
    | zero =>
      simp only [List.replicate, List.nil_append] at hsp
      have hpne : pre ≠ [] := by
        intro h0
        rw [h0] at hsp
        have := congrArg List.length hsp
        simp at this
        omega
      have hdl : (splitSlash l).dropLast = pre := by
        have : splitSlash l = pre ++ [baseL l] := by simpa using hsp
        rw [this, List.dropLast_concat]
      rw [hdl]
      have hxne : joinSlash pre ++ ['/'] ≠ [] := by simp
      have hle := cleanL_le hxne
      have hxlen : (joinSlash pre ++ ['/']).length = compsCost pre := by
        have := joinSlash_length hpne
        simp only [List.length_append, List.length_cons, List.length_nil]
        omega
      have hcostl : compsCost (splitSlash l) = compsCost pre + (baseL l).length + 1 := by
        rw [hsp]
        simp only [compsCost_append, compsCost_cons, compsCost_nil, compCost]
        try omega
      omega
    | succ e' =>
      have hrep : List.replicate (e' + 1) ([] : List Char) =
          List.replicate e' [] ++ [[]] := List.replicate_succ' e' []
      have hcomps : splitSlash l = (pre ++ baseL l :: List.replicate e' []) ++ [[]] := by
        rw [hsp, hrep]
        simp [List.append_assoc]
      have hdsne : pre ++ baseL l :: List.replicate e' [] ≠ [] := by
        intro h0
        have := congrArg List.length h0
        simp at this
      have hdl : (splitSlash l).dropLast = pre ++ baseL l :: List.replicate e' [] := by
        rw [hcomps, List.dropLast_concat]
      have hx : joinSlash (splitSlash l).dropLast ++ ['/'] = l := by
        rw [hdl]
        have hsn := joinSlash_snoc hdsne ([] : List Char)
        calc joinSlash (pre ++ baseL l :: List.replicate e' []) ++ ['/']
            = joinSlash ((pre ++ baseL l :: List.replicate e' []) ++ [[]]) := by
              rw [hsn]
          _ = joinSlash (splitSlash l) := by rw [← hcomps]
          _ = l := joinSlash_split l
      rw [hx]
      have hcount : e' + 1 ≤ (splitSlash l).countP skippableB := by
        rw [hsp, List.countP_append, List.countP_cons, countP_skippable_replicate, hcsk]
        simp
      have hl5 : 5 ≤ l.length := by
        have hcostl : compsCost (splitSlash l) =
            compsCost pre + ((baseL l).length + 1) + (e' + 1) := by
          rw [hsp, compsCost_append, compsCost_cons, compsCost_replicate_nil]
          simp only [compCost]
          try omega
        omega
      rcases cleanL_master hl with hm | hm
      · omega
      · cases hr : isRooted l
        · rw [hr] at hm
          simp only [Bool.false_eq_true, if_false] at hm
          omega
        · have hpre : ∃ pre', pre = [] :: pre' := by
            obtain ⟨t, ht⟩ := isRooted_splitSlash hr
            rw [hsp] at ht
            cases pre with
            | nil =>
              simp only [List.nil_append, List.cons.injEq] at ht
              exact absurd ht.1 hcne
            | cons p0 pre' =>
              simp only [List.cons_append, List.cons.injEq] at ht
              exact ⟨pre', by rw [ht.1]⟩
          obtain ⟨pre', hpre⟩ := hpre
          have hcount2 : e' + 2 ≤ (splitSlash l).countP skippableB := by
            rw [hsp, hpre, List.cons_append, List.countP_cons, List.countP_append,
                List.countP_cons, countP_skippable_replicate, hcsk]
            have hsknil : skippableB ([] : List Char) = true := rfl
            simp [hsknil]
          rw [hr] at hm
          simp only [if_true] at hm
          omega

/-! ## The ancestor-stripping loop: termination and computation -/

theorem gitAncestorFuel_mono {f f' : Nat} {d r : List Char} (hf : f ≤ f')
    (h : watcher.gitAncestorFuel f d = some r) :
    watcher.gitAncestorFuel f' d = some r := by
  induction f generalizing f' d with
  | zero => simp [watcher.gitAncestorFuel] at h
  | succ k ih =>
    cases f' with
    | zero => omega
    | succ k' =>
      simp only [watcher.gitAncestorFuel] at h ⊢
      by_cases hb : baseL d ∈ watcher.gitInternalNames
      · rw [if_pos hb] at h ⊢
        exact ih (by omega) h
      · rw [if_neg hb] at h ⊢
        exact h

theorem gitAncestorFuel_returns_aux :
    ∀ (n : Nat) (d : List Char), d.length ≤ n → ∀ fuel, d.length < fuel →
      ∃ r, watcher.gitAncestorFuel fuel d = some r ∧
        baseL r ∉ watcher.gitInternalNames := by
  intro n
  induction n with
  | zero =>
    intro d hd fuel hf
    have hd0 : d = [] := List.length_eq_zero.mp (Nat.le_zero.mp hd)
    subst hd0
    cases fuel with
    | zero => omega
    | succ f =>
      refine ⟨[], ?_, by decide⟩
      simp only [watcher.gitAncestorFuel]
      rw [if_neg (by decide)]
  | succ k ih =>
    intro d hd fuel hf
    cases fuel with
    | zero => omega
    | succ f =>
      by_cases hb : baseL d ∈ watcher.gitInternalNames
      · have hdec := dirL_decrease hb
        obtain ⟨r, hr, hnb⟩ := ih (dirL d) (by omega) f (by omega)
        refine ⟨r, ?_, hnb⟩
        simp only [watcher.gitAncestorFuel]
        rw [if_pos hb]
        exact hr
      · refine ⟨d, ?_, hb⟩
        simp only [watcher.gitAncestorFuel]
        rw [if_neg hb]

theorem cleanStep_skip {c : List Char} (h : c = [] ∨ c = ['.']) (r : Bool)
    (stack : List (List Char)) : cleanStep r stack c = stack := by
  unfold cleanStep
  rw [if_pos h]

theorem isRooted_of_split {x : List Char} (hne : x ≠ []) {rest : List (List Char)}
    (h : splitSlash x = [] :: rest) : isRooted x = true := by
  cases x with
  | nil => exact absurd rfl hne
  | cons c t =>
    by_cases hc : c = '/'
    · simp [isRooted, hc]
    · rw [splitSlash_cons_other hc] at h
      rcases hsp : splitSlash t with _ | ⟨g, gs⟩
      · exact absurd hsp (splitByL_ne_nil _ _)
      · rw [hsp] at h
        simp at h

theorem foldl_cleanStep_push {cs : List (List Char)} (r : Bool)
    (h : ∀ c ∈ cs, ValidComp c) :
    ∀ stack, List.foldl (cleanStep r) stack cs = cs.reverse ++ stack := by
  induction cs with
  | nil => intro stack; rfl
  | cons c rest ih =>
    intro stack
    obtain ⟨hne, hsl, hdot, hdd⟩ := h c (List.mem_cons_self c rest)
    rw [List.foldl_cons]
    have hstep : cleanStep r stack c = c :: stack := by
      unfold cleanStep
      rw [if_neg (by rintro (h1 | h1); exacts [hne h1, hdot h1]), if_neg hdd]
    rw [hstep, ih (fun x hx => h x (List.mem_cons_of_mem c hx))]
    simp

theorem splitSlash_pathOfComps {cs : List (List Char)} (hne : cs ≠ [])
    (h : ∀ c ∈ cs, '/' ∉ c) : splitSlash (pathOfComps cs) = [] :: cs := by
  unfold pathOfComps
  rw [splitSlash_cons_slash, splitSlash_join hne h]

theorem baseL_pathOfComps {cs : List (List Char)} {c0 : List Char}
    (hns : ∀ c ∈ cs ++ [c0], '/' ∉ c) (hc0 : c0 ≠ []) :
    baseL (pathOfComps (cs ++ [c0])) = c0 := by
  have hne : cs ++ [c0] ≠ [] := by simp
  have hpne : pathOfComps (cs ++ [c0]) ≠ [] := by simp [pathOfComps]
  have hsp := splitSlash_pathOfComps hne hns
  have hscr : (splitSlash (pathOfComps (cs ++ [c0]))).reverse.dropWhile isEmptyComp
      = c0 :: (cs.reverse ++ [[]]) := by
    rw [hsp]
    have hrev : (([] : List Char) :: (cs ++ [c0])).reverse =
        c0 :: (cs.reverse ++ [[]]) := by simp
    rw [hrev, List.dropWhile_cons]
    simp [isEmptyComp, hc0]
  simp only [baseL, if_neg hpne, hscr]

theorem cleanL_rooted_comps {cs : List (List Char)} (hv : ∀ c ∈ cs, ValidComp c) :
    cleanL (joinSlash (([] : List Char) :: cs) ++ ['/']) = pathOfComps cs := by
  set x := joinSlash (([] : List Char) :: cs) ++ ['/'] with hxdef
  have hasne : (([] : List Char) :: cs) ≠ [] := by simp
  have hx : x = joinSlash ((([] : List Char) :: cs) ++ [[]]) := by
    rw [joinSlash_snoc hasne]
  have hns : ∀ c ∈ (([] : List Char) :: cs) ++ [[]], '/' ∉ c := by
    intro c hc
    rcases List.mem_append.mp hc with hc1 | hc1
    · rcases List.mem_cons.mp hc1 with hc2 | hc2
      · simp [hc2]
      · exact (hv c hc2).2.1
    · rw [List.mem_singleton.mp hc1]; simp
  have hxsp : splitSlash x = (([] : List Char) :: cs) ++ [[]] := by
    rw [hx]
    exact splitSlash_join (by simp) hns
  have hxne : x ≠ [] := by simp [hxdef]
  have hroot : isRooted x = true := by
    have hsplit2 : splitSlash x = [] :: (cs ++ [[]]) := by
      rw [hxsp]
      simp
    exact isRooted_of_split hxne hsplit2
  have hfold : (splitSlash x).foldl (cleanStep (isRooted x)) [] = cs.reverse := by
    rw [hxsp, hroot]
    rw [List.cons_append, List.foldl_cons,
        cleanStep_skip (Or.inl rfl) true, List.foldl_append,
        foldl_cleanStep_push true hv, List.foldl_cons,
        cleanStep_skip (Or.inl rfl) true]
    simp
  rw [cleanL_eq hxne, if_pos hroot, hfold, List.reverse_reverse]
  rfl

theorem dirL_pathOfComps {cs : List (List Char)} {c0 : List Char}
    (hv : ∀ c ∈ cs, ValidComp c) (hv0 : ValidComp c0) :
    dirL (pathOfComps (cs ++ [c0])) = pathOfComps cs := by
  have hns : ∀ c ∈ cs ++ [c0], '/' ∉ c := by
    intro c hc
    rcases List.mem_append.mp hc with hc1 | hc1
    · exact (hv c hc1).2.1
    · rw [List.mem_singleton.mp hc1]; exact hv0.2.1
  have hne : cs ++ [c0] ≠ [] := by simp
  have hsp := splitSlash_pathOfComps hne hns
  rw [dirL_eq, hsp]
  rw [if_neg (by simp)]
  have hdl : (([] : List Char) :: (cs ++ [c0])).dropLast = ([] : List Char) :: cs := by
    rw [show (([] : List Char) :: (cs ++ [c0])) = ((([] : List Char) :: cs) ++ [c0]) by simp,
        List.dropLast_concat]
  rw [hdl]
  exact cleanL_rooted_comps hv

theorem gitNames_valid : ∀ c ∈ watcher.gitInternalNames, ValidComp c := by
  unfold ValidComp
  decide

theorem gitAncestor_chain {init : List (List Char)} {rlast : List Char}
    (hv : ∀ c ∈ init ++ [rlast], ValidComp c)
    (hnl : rlast ∉ watcher.gitInternalNames) :
    ∀ chain : List (List Char), (∀ c ∈ chain, c ∈ watcher.gitInternalNames) →
      ∃ fuel, watcher.gitAncestorFuel fuel (pathOfComps ((init ++ [rlast]) ++ chain)) =
        some (pathOfComps (init ++ [rlast])) := by
  intro chain
  induction chain using List.reverseRecOn with
  | nil =>
    intro _
    refine ⟨1, ?_⟩
    rw [List.append_nil]
    have hbase : baseL (pathOfComps (init ++ [rlast])) = rlast := by
      apply baseL_pathOfComps
      · exact fun c hc => (hv c hc).2.1
      · exact (hv rlast (by simp)).1
    simp only [watcher.gitAncestorFuel]
    rw [hbase, if_neg hnl]
  | append_singleton chain nm ih =>
    intro hchain
    have hnm : nm ∈ watcher.gitInternalNames := hchain nm (by simp)
    have hvnm : ValidComp nm := gitNames_valid nm hnm
    have hvrc : ∀ c ∈ (init ++ [rlast]) ++ chain, ValidComp c := by
      intro c hc
      rcases List.mem_append.mp hc with h1 | h1
      · exact hv c h1
      · exact gitNames_valid c (hchain c (by simp [h1]))
    have hbase : baseL (pathOfComps (((init ++ [rlast]) ++ chain) ++ [nm])) = nm := by
      apply baseL_pathOfComps
      · intro c hc
        rcases List.mem_append.mp hc with h1 | h1
        · exact (hvrc c h1).2.1
        · rw [List.mem_singleton.mp h1]; exact hvnm.2.1
      · exact hvnm.1
    have hdir : dirL (pathOfComps (((init ++ [rlast]) ++ chain) ++ [nm])) =
        pathOfComps ((init ++ [rlast]) ++ chain) := dirL_pathOfComps hvrc hvnm
    obtain ⟨f0, hf0⟩ := ih (fun c hc => hchain c (by simp [hc]))
    refine ⟨f0 + 1, ?_⟩
    rw [show (init ++ [rlast]) ++ (chain ++ [nm]) = ((init ++ [rlast]) ++ chain) ++ [nm] by
      simp [List.append_assoc]]
    simp only [watcher.gitAncestorFuel]
    rw [hbase, if_pos hnm, hdir]
    exact hf0

theorem gitAncestorFuel_canonical {d r : List Char} {f0 : Nat}
    (h : watcher.gitAncestorFuel f0 d = some r) :
    watcher.gitAncestorFuel (d.length + 1) d = some r := by
  obtain ⟨r', hr', _⟩ := gitAncestorFuel_returns_aux d.length d (Nat.le_refl _)
    (d.length + 1) (Nat.lt_succ_self _)
  have h1 := gitAncestorFuel_mono (Nat.le_max_left f0 (d.length + 1)) h
  have h2 := gitAncestorFuel_mono (Nat.le_max_right f0 (d.length + 1)) hr'
  rw [h1] at h2
  rw [hr']
  exact h2.symm

theorem derive_git_of_comps {cs root : List (List Char)} {f : List Char}
    (hv : ∀ c ∈ cs, ValidComp c) (hf : ValidComp f)
    (hloop : ∃ fuel, watcher.gitAncestorFuel fuel (pathOfComps cs) =
      some (pathOfComps root)) :
    watcher.deriveWorktreePath ⟨pathOfComps (cs ++ [f])⟩ "git" = ⟨pathOfComps root⟩ := by
  obtain ⟨f0, hf0⟩ := hloop
  have hd : (filepath.Dir ⟨pathOfComps (cs ++ [f])⟩).data = pathOfComps cs := by
    show dirL (pathOfComps (cs ++ [f])) = pathOfComps cs
    exact dirL_pathOfComps hv hf
  simp only [watcher.deriveWorktreePath]
  rw [if_neg (by decide), hd, gitAncestorFuel_canonical hf0]

theorem Dir_mk_pathOfComps {cs : List (List Char)} {c0 : List Char}
    (hv : ∀ c ∈ cs, ValidComp c) (hv0 : ValidComp c0) :
    filepath.Dir ⟨pathOfComps (cs ++ [c0])⟩ = ⟨pathOfComps cs⟩ := by
  show (⟨dirL (pathOfComps (cs ++ [c0]))⟩ : String) = _
  rw [dirL_pathOfComps hv hv0]

/-- C6: owner derivation is a pure, idempotent function of the changed path
string. For the version-control domain, a changed path any number of levels
(`n1 :: chainRest`, all in the fixed set `.git/refs/heads/remotes/worktrees`)
inside a reference-storage subtree under a worktree root derives to that
root — the first ancestor directory whose base name is not in the set — and
a path one level inside the root of that same subtree derives to the same owner;
for the agent domain the owner is exactly three `filepath.Dir` levels above
the sentinel file, which for a well-formed sidecar path is the worktree
root. No filesystem oracle appears in `deriveWorktreePath`: it is a function
of the path string alone. -/
theorem C6_owner_derivation
    (init : List (List Char)) (rlast n1 f : List Char) (chainRest : List (List Char))
    (hv : ∀ c ∈ init ++ [rlast], ValidComp c)
    (hnl : rlast ∉ watcher.gitInternalNames)
    (hn1 : n1 ∈ watcher.gitInternalNames)
    (hchain : ∀ c ∈ chainRest, c ∈ watcher.gitInternalNames)
    (hf : ValidComp f) :
    watcher.deriveWorktreePath
        ⟨pathOfComps (((init ++ [rlast]) ++ (n1 :: chainRest)) ++ [f])⟩ "git" =
      ⟨pathOfComps (init ++ [rlast])⟩ ∧
    watcher.deriveWorktreePath
        ⟨pathOfComps (((init ++ [rlast]) ++ [n1]) ++ [f])⟩ "git" =
      ⟨pathOfComps (init ++ [rlast])⟩ ∧
    (∀ p : String, watcher.deriveWorktreePath p "agent" =
      filepath.Dir (filepath.Dir (filepath.Dir p))) ∧
    watcher.deriveWorktreePath
        ⟨pathOfComps ((init ++ [rlast]) ++
          [".sideby".data, "agent".data, "state.json".data])⟩ "agent" =
      ⟨pathOfComps (init ++ [rlast])⟩ := by
  have hchain1 : ∀ c ∈ (n1 :: chainRest), c ∈ watcher.gitInternalNames := by
    intro c hc
    rcases List.mem_cons.mp hc with h1 | h1
    · rw [h1]; exact hn1
    · exact hchain c h1
  have hv1 : ∀ c ∈ (init ++ [rlast]) ++ (n1 :: chainRest), ValidComp c := by
    intro c hc
    rcases List.mem_append.mp hc with h1 | h1
    · exact hv c h1
    · exact gitNames_valid c (hchain1 c h1)
  have hv2 : ∀ c ∈ (init ++ [rlast]) ++ [n1], ValidComp c := by
    intro c hc
    rcases List.mem_append.mp hc with h1 | h1
    · exact hv c h1
    · rw [List.mem_singleton.mp h1]; exact gitNames_valid n1 hn1
  have hagent : ∀ p : String, watcher.deriveWorktreePath p "agent" =
      filepath.Dir (filepath.Dir (filepath.Dir p)) := by
    intro p
    simp [watcher.deriveWorktreePath]
  refine ⟨?_, ?_, hagent, ?_⟩
  · exact derive_git_of_comps hv1 hf (gitAncestor_chain hv hnl (n1 :: chainRest) hchain1)
  · exact derive_git_of_comps hv2 hf
      (gitAncestor_chain hv hnl [n1] (by
        intro c hc
        rw [List.mem_singleton.mp hc]
        exact hn1))
  · rw [hagent]
    have hsv : ValidComp ".sideby".data := by unfold ValidComp; decide
    have hav : ValidComp "agent".data := by unfold ValidComp; decide
    have hjv : ValidComp "state.json".data := by unfold ValidComp; decide
    have hlist : (init ++ [rlast]) ++ [".sideby".data, "agent".data, "state.json".data] =
        ((((init ++ [rlast]) ++ [".sideby".data]) ++ ["agent".data]) ++
          ["state.json".data]) := by simp
    rw [hlist,
        Dir_mk_pathOfComps (by
          intro c hc
          rcases List.mem_append.mp hc with h1 | h1
          · rcases List.mem_append.mp h1 with h2 | h2
            · exact hv c h2
            · rw [List.mem_singleton.mp h2]; exact hsv
          · rw [List.mem_singleton.mp h1]; exact hav) hjv,
        Dir_mk_pathOfComps (by
          intro c hc
          rcases List.mem_append.mp hc with h1 | h1
          · exact hv c h1
          · rw [List.mem_singleton.mp h1]; exact hsv) hav,
        Dir_mk_pathOfComps hv hsv]

/-- Witness for C6: a concrete worktree root `/repo/wt`, a change three
levels inside the reference storage (`.git/refs/heads/main`), a change one
level inside `.git`, and the sidecar file, all derive the owner `/repo/wt`. -/
theorem C6_owner_derivation_witness :
    watcher.deriveWorktreePath "/repo/wt/.git/refs/heads/main" "git" = "/repo/wt" ∧
    watcher.deriveWorktreePath "/repo/wt/.git/main" "git" = "/repo/wt" ∧
    watcher.deriveWorktreePath "/repo/wt/.sideby/agent/state.json" "agent" = "/repo/wt" := by
  have h := C6_owner_derivation ["repo".data] "wt".data ".git".data "main".data
    ["refs".data, "heads".data] (by unfold ValidComp; decide) (by decide) (by decide)
    (by decide) (by unfold ValidComp; decide)
  obtain ⟨h1, h2, _, h4⟩ := h
  refine ⟨?_, ?_, ?_⟩
  · have e1 : (⟨pathOfComps ((((["repo".data] : List (List Char)) ++ ["wt".data]) ++
        (".git".data :: ["refs".data, "heads".data])) ++ ["main".data])⟩ : String) =
        "/repo/wt/.git/refs/heads/main" := by decide
    have e2 : (⟨pathOfComps ((["repo".data] : List (List Char)) ++ ["wt".data])⟩ : String) =
        "/repo/wt" := by decide
    rw [← e1, ← e2]
    exact h1
  · have e1 : (⟨pathOfComps ((((["repo".data] : List (List Char)) ++ ["wt".data]) ++
        [".git".data]) ++ ["main".data])⟩ : String) = "/repo/wt/.git/main" := by decide
    have e2 : (⟨pathOfComps ((["repo".data] : List (List Char)) ++ ["wt".data])⟩ : String) =
        "/repo/wt" := by decide
    rw [← e1, ← e2]
    exact h2
  · have e1 : (⟨pathOfComps (((["repo".data] : List (List Char)) ++ ["wt".data]) ++
        [".sideby".data, "agent".data, "state.json".data])⟩ : String) =
        "/repo/wt/.sideby/agent/state.json" := by decide
    have e2 : (⟨pathOfComps ((["repo".data] : List (List Char)) ++ ["wt".data])⟩ : String) =
        "/repo/wt" := by decide
    rw [← e1, ← e2]
    exact h4

/-- C10: the ancestor-stripping loop of `deriveWorktreePath` terminates for
every input path string. Whenever the base name of the current directory is
in the fixed internal set, taking `Dir` strictly shortens it, so the loop
returns a value within `length + 1` iterations, and the base name of that value
is outside the set (the exit condition of the loop). -/
theorem C10_derive_termination (d : String) (fuel : Nat) (h : d.length < fuel) :
    (∃ r, watcher.gitAncestorFuel fuel d.data = some r ∧
      baseL r ∉ watcher.gitInternalNames) ∧
    (baseL d.data ∈ watcher.gitInternalNames → (dirL d.data).length < d.data.length) :=
  ⟨gitAncestorFuel_returns_aux d.data.length d.data (Nat.le_refl _) fuel h,
   fun hb => dirL_decrease hb⟩

/-- Witness for C10 at the concrete directory `/repo/wt/.git` with fuel 15. -/
theorem C10_derive_termination_witness :
    ("/repo/wt/.git".length < 15) ∧
    ((∃ r, watcher.gitAncestorFuel 15 "/repo/wt/.git".data = some r ∧
      baseL r ∉ watcher.gitInternalNames) ∧
    (baseL "/repo/wt/.git".data ∈ watcher.gitInternalNames →
      (dirL "/repo/wt/.git".data).length < "/repo/wt/.git".data.length)) :=
  ⟨by decide, C10_derive_termination "/repo/wt/.git" 15 (by decide)⟩

/-! ## String helpers for the parser proofs -/

theorem String_data_append (a b : String) : (a ++ b).data = a.data ++ b.data := rfl

theorem String_mk_data (s : String) : (⟨s.data⟩ : String) = s := rfl

theorem strHasPrefix_append (a b : String) : strHasPrefix (a ++ b) a = true := by
  unfold strHasPrefix
  rw [List.isPrefixOf_iff_prefix, String_data_append]
  exact List.prefix_append _ _

theorem isPrefixOf_false_of_head {a b : Char} (as bs : List Char) (h : b ≠ a) :
    List.isPrefixOf (a :: as) (b :: bs) = false := by
  have hab : (a == b) = false := beq_eq_false_iff_ne.mpr (fun hh => h hh.symm)
  simp [List.isPrefixOf, hab]

theorem strDrop_append (a b : String) : strDrop (a ++ b) a.length = b := by
  unfold strDrop
  rw [String_data_append]
  have : a.length = a.data.length := rfl
  rw [this, List.drop_left]

/-! ## The interaction engine: rebuild shape and the cursor invariant -/

namespace tui

theorem refreshAll_err (env : Env) (m : Model) {e : String}
    (h : env.discover = Except.error e) :
    refreshAll env m = { m with message := "discovery error: " ++ e } := by
  unfold refreshAll
  rw [h]

theorem refreshAll_ok (env : Env) (m : Model) {wts : List worktree.Worktree}
    (h : env.discover = Except.ok wts) :
    refreshAll env m = { m with
      rows := wts.map (mkRow env),
      cursor := if wts.length ≤ m.cursor then wts.length - 1 else m.cursor,
      watcher :=
        if m.sendFnSet then
          if env.newWatcherOk then
            some ((wts.map (mkRow env)).flatMap fun r =>
              watcher.watchPaths env.stat env.readFileFn r.Worktree.Path)
          else none
        else none } := by
  unfold refreshAll
  rw [h]
  simp only [List.length_map]

theorem cursorInv_congr {m m' : Model} (hr : m'.rows = m.rows)
    (hc : m'.cursor = m.cursor) (hm : CursorInv m) : CursorInv m' := by
  unfold CursorInv at *
  rw [hr, hc]
  exact hm

theorem cursorInv_refreshAll (env : Env) {m : Model} (hm : CursorInv m) :
    CursorInv (refreshAll env m) := by
  rcases hdisc : env.discover with e | wts
  · rw [refreshAll_err env m hdisc]
    exact cursorInv_congr rfl rfl hm
  · rw [refreshAll_ok env m hdisc]
    constructor
    · intro hr
      have hw : wts = [] := by
        have hwl := congrArg List.length hr
        simpa using hwl
      subst hw
      simp
    · intro hr
      have hw : wts ≠ [] := by
        intro h0
        subst h0
        exact hr rfl
      have hl : 0 < wts.length := List.length_pos.mpr hw
      show (if wts.length ≤ m.cursor then wts.length - 1 else m.cursor) <
        (wts.map (mkRow env)).length
      rw [List.length_map]
      split
      · omega
      · rename_i hcl
        omega

theorem refreshRowList_length (env : Env) (rows : List Row) (p k : String) :
    (refreshRowList env rows p k).length = rows.length := by
  induction rows with
  | nil => rfl
  | cons r rest ih =>
    unfold refreshRowList
    split
    · simp
    · simp [ih]

theorem cursorInv_handleKey (env : Env) {m : Model} (hm : CursorInv m) (k : String) :
    CursorInv (handleKey env m k).1 := by
  have hra : ∀ mm : Model, mm.rows = m.rows → mm.cursor = m.cursor →
      CursorInv (refreshAll env mm) := fun mm hr hc =>
    cursorInv_refreshAll env (cursorInv_congr hr hc hm)
  unfold handleKey
  by_cases hcf : m.confirming = true
  · rw [if_pos hcf]
    by_cases hkd : k = "d"
    · rw [if_pos hkd]
      by_cases hlt : m.cursor < m.rows.length
      · rw [dif_pos hlt]
        split
        · exact cursorInv_congr rfl rfl hm
        · exact hra _ rfl rfl
      · rw [dif_neg hlt]
        exact cursorInv_congr rfl rfl hm
    · rw [if_neg hkd]
      exact cursorInv_congr rfl rfl hm
  · rw [if_neg hcf]
    by_cases hkq : k = "q" ∨ k = "ctrl+c"
    · rw [if_pos hkq]
      exact cursorInv_congr rfl rfl hm
    rw [if_neg hkq]
    by_cases hkk : k = "k" ∨ k = "up"
    · rw [if_pos hkk]
      by_cases hpos : 0 < m.cursor
      · rw [if_pos hpos]
        exact ⟨fun hr => show m.cursor - 1 = 0 from by have h1 := hm.1 hr; omega,
               fun hr => show m.cursor - 1 < m.rows.length from by
                 have h2 := hm.2 hr; omega⟩
      · rw [if_neg hpos]
        exact cursorInv_congr rfl rfl hm
    rw [if_neg hkk]
    by_cases hkj : k = "j" ∨ k = "down"
    · rw [if_pos hkj]
      by_cases hguard : m.cursor < m.rows.length - 1
      · rw [if_pos hguard]
        exact ⟨fun hr => absurd hguard (by
                 have h0 : m.rows.length = 0 := by
                   rw [show m.rows = [] from hr]
                   rfl
                 omega),
               fun hr => show m.cursor + 1 < m.rows.length from by omega⟩
      · rw [if_neg hguard]
        exact cursorInv_congr rfl rfl hm
    rw [if_neg hkj]
    by_cases hkr : k = "r"
    · rw [if_pos hkr]
      exact cursorInv_congr rfl rfl (hra _ rfl rfl)
    rw [if_neg hkr]
    by_cases hke : k = "enter"
    · rw [if_pos hke]
      by_cases hlt : m.cursor < m.rows.length
      · rw [dif_pos hlt]
        repeat' split
        all_goals exact cursorInv_congr rfl rfl hm
      · rw [dif_neg hlt]
        exact cursorInv_congr rfl rfl hm
    rw [if_neg hke]
    by_cases hko : k = "o"
    · rw [if_pos hko]
      by_cases hlt : m.cursor < m.rows.length
      · rw [dif_pos hlt]
        repeat' split
        all_goals exact cursorInv_congr rfl rfl hm
      · rw [dif_neg hlt]
        exact cursorInv_congr rfl rfl hm
    rw [if_neg hko]
    by_cases hkg : k = "g"
    · rw [if_pos hkg]
      by_cases hlt : m.cursor < m.rows.length
      · rw [dif_pos hlt]
        repeat' split
        all_goals exact cursorInv_congr rfl rfl hm
      · rw [dif_neg hlt]
        exact cursorInv_congr rfl rfl hm
    rw [if_neg hkg]
    by_cases hkd : k = "d"
    · rw [if_pos hkd]
      by_cases h0 : m.cursor = 0
      · rw [if_pos h0]
        exact cursorInv_congr rfl rfl hm
      · rw [if_neg h0]
        by_cases hlt : m.cursor < m.rows.length
        · rw [dif_pos hlt]
          exact cursorInv_congr rfl rfl hm
        · rw [dif_neg hlt]
          exact cursorInv_congr rfl rfl hm
    rw [if_neg hkd]
    exact cursorInv_congr rfl rfl hm

theorem cursorInv_update (env : Env) {m : Model} (hm : CursorInv m) (msg : Msg) :
    CursorInv (update env m msg).1 := by
  cases msg with
  | windowSize w h => exact cursorInv_congr rfl rfl hm
  | key k => exact cursorInv_handleKey env hm k
  | refresh => exact cursorInv_refreshAll env hm
  | fileChanged p kind =>
    have hlen := refreshRowList_length env m.rows p kind
    constructor
    · intro hr
      have h0 : m.rows.length = 0 := by
        rw [← hlen]
        exact List.length_eq_zero.mpr hr
      exact hm.1 (List.length_eq_zero.mp h0)
    · intro hr
      have h0 : m.rows ≠ [] := by
        intro hnil
        apply hr
        have h1 : (refreshRowList env m.rows p kind).length = 0 := by
          rw [hlen, hnil]
          rfl
        exact List.length_eq_zero.mp h1
      have h2 := hm.2 h0
      show m.cursor < (refreshRowList env m.rows p kind).length
      omega

/-- C2: cursor bounds invariant. In every state the event loop can reach,
`0 ≤ cursorIndex < len(rows)` holds when the table is non-empty and
`cursorIndex = 0` when it is empty (cursor move, full rebuild, incremental
patch, and all key handling preserve it from the startup state); moreover a
successful full rebuild sets the cursor to `min(cursorIndex, len(rows)-1)`,
or 0 for an empty table. -/
theorem C2_cursor_bounds :
    (∀ m : Model, Reachable m → CursorInv m) ∧
    (∀ (env : Env) (m : Model) (wts : List worktree.Worktree),
      env.discover = Except.ok wts →
      (refreshAll env m).cursor =
        if wts.length = 0 then 0 else min m.cursor (wts.length - 1)) := by
  constructor
  · intro m hm
    induction hm with
    | init => exact ⟨fun _ => rfl, fun h => absurd rfl h⟩
    | step env msg hrec ih => exact cursorInv_update env ih msg
  · intro env m wts h
    rw [refreshAll_ok env m h]
    show (if wts.length ≤ m.cursor then wts.length - 1 else m.cursor) = _
    by_cases h0 : wts.length = 0
    · rw [if_pos (by omega), if_pos h0]
      omega
    · rw [if_neg h0]
      by_cases hc : wts.length ≤ m.cursor
      · rw [if_pos hc]
        omega
      · rw [if_neg hc]
        omega

/-- Witness for C2 at the startup model and a concrete discovery of three
worktrees. -/
theorem C2_cursor_bounds_witness :
    CursorInv initModel ∧
    (refreshAll (envOf wtsABC) initModel).cursor =
      (if wtsABC.length = 0 then 0 else min initModel.cursor (wtsABC.length - 1)) :=
  ⟨C2_cursor_bounds.1 initModel Reachable.init,
   C2_cursor_bounds.2 (envOf wtsABC) initModel wtsABC rfl⟩

theorem refreshRowList_no_match (env : Env) {rows : List Row} {p : String} (k : String)
    (h : ∀ r ∈ rows, r.Worktree.Path ≠ p) :
    refreshRowList env rows p k = rows := by
  induction rows with
  | nil => rfl
  | cons r rest ih =>
    unfold refreshRowList
    rw [if_neg (h r (List.mem_cons_self r rest)),
        ih (fun x hx => h x (List.mem_cons_of_mem r hx))]

theorem refreshRowList_match (env : Env) {rows : List Row} {p : String} (k : String)
    (hnd : (rows.map (fun r => r.Worktree.Path)).Nodup)
    {i : Nat} (hi : i < rows.length) (hp : (rows.get ⟨i, hi⟩).Worktree.Path = p) :
    refreshRowList env rows p k = rows.set i (patchRow env p k (rows.get ⟨i, hi⟩)) := by
  induction rows generalizing i with
  | nil => exact absurd hi (by simp)
  | cons r rest ih =>
    cases i with
    | zero =>
      have hp0 : r.Worktree.Path = p := hp
      unfold refreshRowList
      rw [if_pos hp0]
      rfl
    | succ j =>
      have hj : j < rest.length := by simpa using hi
      have hrne : ¬(r.Worktree.Path = p) := by
        intro hre
        have hmem : p ∈ rest.map (fun rr => rr.Worktree.Path) :=
          List.mem_map.mpr ⟨rest.get ⟨j, hj⟩, rest.get_mem j hj, hp⟩
        have hnotin := (List.nodup_cons.mp hnd).1
        exact hnotin (show r.Worktree.Path ∈ _ from by rw [hre]; exact hmem)
      unfold refreshRowList
      rw [if_neg hrne, ih (List.nodup_cons.mp hnd).2 hj hp]
      rfl

/-- C3: `incrementalRecompute` postcondition. A signal whose path matches no
row leaves the table unchanged (a pure no-op, there is no error path); a
signal matching row `i` (paths are distinct) replaces exactly that row with
its patched version, where the patch for domain `agent` rewrites only the
AgentState field, domain `git` rewrites only the VersionControlStatus field,
any other domain rewrites both, and the ReviewRequest and identity fields
are untouched in every case; the event dispatch touches nothing but the row
list. -/
theorem C3_incremental_recompute (env : Env) (rows : List Row) (p k : String) :
    ((∀ r ∈ rows, r.Worktree.Path ≠ p) → refreshRowList env rows p k = rows) ∧
    ((rows.map (fun r => r.Worktree.Path)).Nodup →
      ∀ (i : Nat) (hi : i < rows.length), (rows.get ⟨i, hi⟩).Worktree.Path = p →
        refreshRowList env rows p k = rows.set i (patchRow env p k (rows.get ⟨i, hi⟩))) ∧
    (∀ r : Row, (patchRow env p k r).PR = r.PR ∧ (patchRow env p k r).Worktree = r.Worktree) ∧
    (∀ r : Row, (patchRow env p "agent" r).GitStatus = r.GitStatus ∧
      (patchRow env p "agent" r).AgentState = env.agentOf p) ∧
    (∀ r : Row, (patchRow env p "git" r).AgentState = r.AgentState ∧
      (patchRow env p "git" r).GitStatus = gitstatus.Get env.statusOut env.revListOut p) ∧
    (k ≠ "agent" → k ≠ "git" → ∀ r : Row,
      (patchRow env p k r).GitStatus = gitstatus.Get env.statusOut env.revListOut p ∧
      (patchRow env p k r).AgentState = env.agentOf p) ∧
    (∀ m : Model, (update env m (Msg.fileChanged p k)).1 =
      { m with rows := refreshRowList env m.rows p k }) := by
  refine ⟨fun h => refreshRowList_no_match env k h,
          fun hnd i hi hp => refreshRowList_match env k hnd hi hp,
          ?_, ?_, ?_, ?_, fun m => rfl⟩
  · intro r
    unfold patchRow
    by_cases hka : k = "agent"
    · rw [if_pos hka]
      exact ⟨rfl, rfl⟩
    · rw [if_neg hka]
      by_cases hkg : k = "git"
      · rw [if_pos hkg]
        exact ⟨rfl, rfl⟩
      · rw [if_neg hkg]
        exact ⟨rfl, rfl⟩
  · intro r
    exact ⟨rfl, rfl⟩
  · intro r
    unfold patchRow
    rw [if_neg (by decide), if_pos rfl]
    exact ⟨rfl, rfl⟩
  · intro hka hkg r
    unfold patchRow
    rw [if_neg hka, if_neg hkg]
    exact ⟨rfl, rfl⟩

/-- Witness for C3: on the two-row fixture, a signal for an absent path is a
no-op, and an agent signal for `/r-featA` rewrites exactly row 1. -/
theorem C3_incremental_recompute_witness :
    refreshRowList (envOf wtsABC) rowsTwo "/zzz" "agent" = rowsTwo ∧
    refreshRowList (envOf wtsABC) rowsTwo "/r-featA" "agent" =
      rowsTwo.set 1 (patchRow (envOf wtsABC) "/r-featA" "agent"
        (rowsTwo.get ⟨1, by decide⟩)) :=
  ⟨(C3_incremental_recompute (envOf wtsABC) rowsTwo "/zzz" "agent").1 (by decide),
   (C3_incremental_recompute (envOf wtsABC) rowsTwo "/r-featA" "agent").2.1 (by decide)
     1 (by decide) (by decide)⟩

/-- C4 (code-bug exhibit): when discovery fails, the rebuild is aborted with
rows, cursor and subscriptions fully intact on both trigger paths, and the
error text is written to the status message; for the startup refresh event
the message survives, but the manual refresh key unconditionally clears the
message after `refreshAll` returns, so the discovery error is NOT visible
when key handling completes — contradicting the surfacing
requirement of the claim. -/
theorem C4_discovery_error_message (env : Env) (m : Model) (e : String)
    (h : env.discover = Except.error e) :
    ((refreshAll env m).rows = m.rows ∧ (refreshAll env m).cursor = m.cursor ∧
      (refreshAll env m).watcher = m.watcher ∧
      (refreshAll env m).message = "discovery error: " ++ e) ∧
    ((update env m Msg.refresh).1.rows = m.rows ∧
      (update env m Msg.refresh).1.cursor = m.cursor ∧
      (update env m Msg.refresh).1.message = "discovery error: " ++ e) ∧
    (m.confirming = false →
      (update env m (Msg.key "r")).1.rows = m.rows ∧
      (update env m (Msg.key "r")).1.cursor = m.cursor ∧
      (update env m (Msg.key "r")).1.message = "") := by
  refine ⟨?_, ?_, ?_⟩
  · rw [refreshAll_err env m h]
    exact ⟨rfl, rfl, rfl, rfl⟩
  · show (refreshAll env m).rows = m.rows ∧ (refreshAll env m).cursor = m.cursor ∧
      (refreshAll env m).message = "discovery error: " ++ e
    rw [refreshAll_err env m h]
    exact ⟨rfl, rfl, rfl⟩
  · intro hcf
    have hncf : ¬(m.confirming = true) := by rw [hcf]; simp
    show (handleKey env m "r").1.rows = m.rows ∧ (handleKey env m "r").1.cursor = m.cursor ∧
      (handleKey env m "r").1.message = ""
    unfold handleKey
    rw [if_neg hncf, if_neg (by decide : ¬(("r" : String) = "q" ∨ ("r" : String) = "ctrl+c")),
        if_neg (by decide : ¬(("r" : String) = "k" ∨ ("r" : String) = "up")),
        if_neg (by decide : ¬(("r" : String) = "j" ∨ ("r" : String) = "down")),
        if_pos (rfl : ("r" : String) = "r"),
        refreshAll_err env { m with message := "Refreshing..." } h]
    exact ⟨rfl, rfl, rfl⟩

/-- Witness for C4 at a failing discovery world and the startup model. -/
theorem C4_discovery_error_message_witness :
    ((refreshAll (envErr "fatal: not a git repository") initModel).rows = initModel.rows ∧
      (refreshAll (envErr "fatal: not a git repository") initModel).cursor = initModel.cursor ∧
      (refreshAll (envErr "fatal: not a git repository") initModel).watcher = initModel.watcher ∧
      (refreshAll (envErr "fatal: not a git repository") initModel).message =
        "discovery error: " ++ "fatal: not a git repository") ∧
    ((update (envErr "fatal: not a git repository") initModel Msg.refresh).1.rows =
        initModel.rows ∧
      (update (envErr "fatal: not a git repository") initModel Msg.refresh).1.cursor =
        initModel.cursor ∧
      (update (envErr "fatal: not a git repository") initModel Msg.refresh).1.message =
        "discovery error: " ++ "fatal: not a git repository") ∧
    (initModel.confirming = false →
      (update (envErr "fatal: not a git repository") initModel (Msg.key "r")).1.rows =
        initModel.rows ∧
      (update (envErr "fatal: not a git repository") initModel (Msg.key "r")).1.cursor =
        initModel.cursor ∧
      (update (envErr "fatal: not a git repository") initModel (Msg.key "r")).1.message = "") :=
  C4_discovery_error_message (envErr "fatal: not a git repository") initModel
    "fatal: not a git repository" rfl

/-- `flatMap` after `map` fuses. -/
theorem flatMap_after_map {α β γ : Type} (f : α → β) (g : β → List γ) (l : List α) :
    (l.map f).flatMap g = l.flatMap (fun x => g (f x)) := by
  induction l with
  | nil => rfl
  | cons a t ih => simp [List.flatMap_cons, ih]

/-- C5: rebuild–resubscribe coupling. Every successful full rebuild replaces
the active subscription set with exactly the set derived from the freshly
discovered worktree paths (`WatchWorktree` applied to each discovered path,
in discovery order): the resulting watcher state is a single subscription
set that does not depend on the previous one in any way, on the bare
rebuild, on the refresh event, and on the manual refresh key alike. -/
theorem C5_rebuild_resubscribe (env : Env) (m : Model) (wts : List worktree.Worktree)
    (hok : env.discover = Except.ok wts) (hw : env.newWatcherOk = true)
    (hs : m.sendFnSet = true) (hcf : m.confirming = false) :
    (refreshAll env m).watcher =
      some (wts.flatMap fun wt => watcher.watchPaths env.stat env.readFileFn wt.Path) ∧
    (update env m Msg.refresh).1.watcher =
      some (wts.flatMap fun wt => watcher.watchPaths env.stat env.readFileFn wt.Path) ∧
    (update env m (Msg.key "r")).1.watcher =
      some (wts.flatMap fun wt => watcher.watchPaths env.stat env.readFileFn wt.Path) := by
  have hmain : ∀ mm : Model, mm.sendFnSet = true → (refreshAll env mm).watcher =
      some (wts.flatMap fun wt => watcher.watchPaths env.stat env.readFileFn wt.Path) := by
    intro mm hms
    rw [refreshAll_ok env mm hok]
    show (if mm.sendFnSet then
        if env.newWatcherOk then
          some ((wts.map (mkRow env)).flatMap fun r =>
            watcher.watchPaths env.stat env.readFileFn r.Worktree.Path)
        else none
      else none) = _
    rw [hms, hw, if_pos rfl, if_pos rfl, flatMap_after_map]
    rfl
  have hncf : ¬(m.confirming = true) := by rw [hcf]; simp
  refine ⟨hmain m hs, hmain m hs, ?_⟩
  show (handleKey env m "r").1.watcher = _
  unfold handleKey
  rw [if_neg hncf, if_neg (by decide : ¬(("r" : String) = "q" ∨ ("r" : String) = "ctrl+c")),
      if_neg (by decide : ¬(("r" : String) = "k" ∨ ("r" : String) = "up")),
      if_neg (by decide : ¬(("r" : String) = "j" ∨ ("r" : String) = "down")),
      if_pos (rfl : ("r" : String) = "r")]
  exact hmain { m with message := "Refreshing..." } hs

/-- Witness for C5 at a concrete world with a live watch facility: the new
subscription set is derived exactly from the single discovered path. -/
theorem C5_rebuild_resubscribe_witness :
    (refreshAll envWatch initModel).watcher =
      some (([⟨"/r", "main"⟩] : List worktree.Worktree).flatMap fun wt =>
        watcher.watchPaths envWatch.stat envWatch.readFileFn wt.Path) ∧
    (refreshAll envWatch initModel).watcher = some ["/r/.git", "/r/.git/refs"] := by
  refine ⟨(C5_rebuild_resubscribe envWatch initModel [⟨"/r", "main"⟩] rfl rfl rfl rfl).1, ?_⟩
  rw [(C5_rebuild_resubscribe envWatch initModel [⟨"/r", "main"⟩] rfl rfl rfl rfl).1]
  decide

end tui

/-- C7 (code-bug exhibit): for a redirect file whose content is
`gitdir: P` followed by a line terminator, `WatchWorktree` slices off only
the 8-byte `gitdir: ` prefix and cleans the remainder without stripping the
terminator, so the path handed to the subscription call is `P` with the
newline still attached — not the cleaned pointer path `P` the claim
requires (`Clean` treats the newline as an ordinary character of the final
component, so the two differ whenever a terminator is present). -/
theorem C7_redirect_resolution :
    watcher.resolveRedirect "gitdir: /main/.git/worktrees/ft\n" =
      some "/main/.git/worktrees/ft\n" ∧
    filepath.Clean "/main/.git/worktrees/ft" = "/main/.git/worktrees/ft" ∧
    watcher.resolveRedirect "gitdir: /main/.git/worktrees/ft\n" ≠
      some (filepath.Clean "/main/.git/worktrees/ft") ∧
    watcher.watchPaths
      (fun p => if p = "/w/.git" then some false else none)
      (fun p => if p = "/w/.git" then some "gitdir: /main/.git/worktrees/ft\n" else none)
      "/w" = ["/main/.git/worktrees/ft\n"] := by
  refine ⟨by decide, by decide, by decide, by decide⟩

namespace tui

/-- C8 counterexample: during a full rebuild in which the status probe fails
internally for `/r-featB`, the rebuild is not aborted and that row receives
the zero-value status — but the zero value has `Clean = false` and renders
as "dirty", not as clean with zero counts as the claim states. -/
theorem C8_zero_status_not_clean :
    (refreshAll envProbeFail initModel).rows.map (fun r => r.GitStatus) =
      [{ Clean := true }, {}] ∧
    gitstatus.Status.render {} = "dirty" ∧
    gitstatus.Status.render {} ≠ "clean" := by
  refine ⟨by decide, by decide, by decide⟩

/-- C8 amended: if the status probe fails internally for one worktree during
a full rebuild, the rebuild is not aborted (the table is fully rebuilt with
one row per discovered worktree) and that row receives the zero-value
VersionControlStatus — whose `Clean` flag is the zero value `false`, so it
is rendered as "dirty", not as clean. -/
theorem C8_probe_degradation (env : Env) (m : Model) (wts : List worktree.Worktree)
    (hok : env.discover = Except.ok wts) (i : Nat) (hi : i < wts.length)
    (hfail : env.statusOut (wts.get ⟨i, hi⟩).Path = none) :
    (refreshAll env m).rows.length = wts.length ∧
    (refreshAll env m).rows[i]? = some (mkRow env (wts.get ⟨i, hi⟩)) ∧
    (mkRow env (wts.get ⟨i, hi⟩)).GitStatus = ({} : gitstatus.Status) ∧
    gitstatus.Status.render {} = "dirty" := by
  rw [refreshAll_ok env m hok]
  refine ⟨by simp, ?_, ?_, by decide⟩
  · show (wts.map (mkRow env))[i]? = _
    rw [List.getElem?_map, List.getElem?_eq_getElem hi]
    rfl
  · show gitstatus.Get env.statusOut env.revListOut (wts.get ⟨i, hi⟩).Path = _
    unfold gitstatus.Get
    rw [hfail]

/-- Witness for C8 at the concrete probe-failure world, `i = 1`. -/
theorem C8_probe_degradation_witness :
    (refreshAll envProbeFail initModel).rows.length =
      ([⟨"/r", "main"⟩, ⟨"/r-featB", "featB"⟩] : List worktree.Worktree).length ∧
    (refreshAll envProbeFail initModel).rows[1]? =
      some (mkRow envProbeFail
        (([⟨"/r", "main"⟩, ⟨"/r-featB", "featB"⟩] : List worktree.Worktree).get
          ⟨1, by decide⟩)) ∧
    (mkRow envProbeFail
      (([⟨"/r", "main"⟩, ⟨"/r-featB", "featB"⟩] : List worktree.Worktree).get
        ⟨1, by decide⟩)).GitStatus = ({} : gitstatus.Status) ∧
    gitstatus.Status.render {} = "dirty" :=
  C8_probe_degradation envProbeFail initModel
    [⟨"/r", "main"⟩, ⟨"/r-featB", "featB"⟩] rfl 1 (by decide) (by decide)

end tui

theorem strHasPrefix_branch_not_worktree (ref : String) :
    strHasPrefix ("branch " ++ ref) "worktree " = false := by
  unfold strHasPrefix
  have hd : ("branch " ++ ref).data = 'b' :: ("ranch " ++ ref).data := rfl
  have hw : ("worktree " : String).data = 'w' :: ("orktree " : String).data := rfl
  rw [hd, hw]
  exact isPrefixOf_false_of_head _ _ (by decide)

theorem parseLines_cons_worktree (rest : List String) (cur : worktree.Worktree) (p : String)
    (hp : trimSpace ("worktree " ++ p) = "worktree " ++ p) :
    worktree.parseLines (("worktree " ++ p) :: rest) cur =
      worktree.parseLines rest ⟨p, ""⟩ := by
  rw [worktree.parseLines, hp, if_pos (strHasPrefix_append "worktree " p)]
  have h9 : strDrop ("worktree " ++ p) 9 = p := strDrop_append "worktree " p
  rw [h9]

theorem parseLines_cons_branch (rest : List String) (cur : worktree.Worktree) (ref : String)
    (hr : trimSpace ("branch " ++ ref) = "branch " ++ ref) :
    worktree.parseLines (("branch " ++ ref) :: rest) cur =
      worktree.parseLines rest { cur with Branch := filepath.Base ref } := by
  rw [worktree.parseLines, hr,
      if_neg (by rw [strHasPrefix_branch_not_worktree ref]; simp),
      if_pos (strHasPrefix_append "branch " ref)]
  have h7 : strDrop ("branch " ++ ref) 7 = ref := strDrop_append "branch " ref
  rw [h7]

/-- C9: the porcelain parser records only the final path component of the
branch ref (`filepath.Base`), so a branch whose name contains a slash is
stored truncated to its last segment, and the deletion confirmation message
interpolates exactly that stored (truncated) branch name. -/
theorem C9_branch_truncation (p ref : String)
    (hp : trimSpace ("worktree " ++ p) = "worktree " ++ p)
    (hr : trimSpace ("branch " ++ ref) = "branch " ++ ref)
    (hpne : p ≠ "") :
    worktree.parseLines ["worktree " ++ p, "branch " ++ ref] ⟨"", ""⟩ =
      [⟨p, filepath.Base ref⟩] ∧
    filepath.Base "refs/heads/feat/login" = "login" ∧
    (∀ (env : tui.Env) (m : tui.Model) (h : m.cursor < m.rows.length),
      m.confirming = false → m.cursor ≠ 0 →
      (tui.update env m (tui.Msg.key "d")).1.message =
        "Delete worktree \x27" ++ (m.rows.get ⟨m.cursor, h⟩).Worktree.Branch ++
          "\x27? Press d to confirm, any other key to cancel") := by
  refine ⟨?_, by decide, ?_⟩
  · rw [parseLines_cons_worktree _ _ _ hp, parseLines_cons_branch _ _ _ hr,
        worktree.parseLines, if_pos (show (⟨p, ""⟩ : worktree.Worktree).Path ≠ "" from hpne)]
  · intro env m h hcf hc0
    have hncf : ¬(m.confirming = true) := by rw [hcf]; simp
    show (tui.handleKey env m "d").1.message = _
    unfold tui.handleKey
    rw [if_neg hncf,
        if_neg (by decide : ¬(("d" : String) = "q" ∨ ("d" : String) = "ctrl+c")),
        if_neg (by decide : ¬(("d" : String) = "k" ∨ ("d" : String) = "up")),
        if_neg (by decide : ¬(("d" : String) = "j" ∨ ("d" : String) = "down")),
        if_neg (by decide : ¬(("d" : String) = "r")),
        if_neg (by decide : ¬(("d" : String) = "enter")),
        if_neg (by decide : ¬(("d" : String) = "o")),
        if_neg (by decide : ¬(("d" : String) = "g")),
        if_pos (rfl : ("d" : String) = "d"),
        if_neg hc0, dif_pos h]

/-- Witness for C9 at the porcelain record of a slashed branch ref and a
concrete deletion attempt on a row whose stored branch is `login`. -/
theorem C9_branch_truncation_witness :
    worktree.parseLines ["worktree " ++ "/r", "branch " ++ "refs/heads/feat/login"]
      ⟨"", ""⟩ = [⟨"/r", "login"⟩] ∧
    (tui.update (tui.envOf tui.wtsABC) tui.mDelFixture (tui.Msg.key "d")).1.message =
      "Delete worktree \x27login\x27? Press d to confirm, any other key to cancel" := by
  have h := C9_branch_truncation "/r" "refs/heads/feat/login"
    (by decide) (by decide) (by decide)
  refine ⟨h.1.trans (by decide), ?_⟩
  exact (h.2.2 (tui.envOf tui.wtsABC) tui.mDelFixture (by decide) rfl
    (by decide)).trans (by decide)

namespace tui

/-- C1 (code-bug exhibit): evaluating the event loop on the failing trace.
After discovering three worktrees and entering the removal confirmation on
row 2, a refresh event processed while the confirmation is pending shrinks
the table to the single primary row and clamps the cursor to 0 without
cancelling the confirmation; the subsequent confirm keypress then kills the
window of the primary row and invokes the removal collaborator with `/r` —
the path of the first row (the primary working tree) — contradicting the protection
claim. -/
theorem C1_primary_row_removal_trace :
    (runFrom initModel traceC1).2 =
      [Effect.killWindowByPath "/r", Effect.removeWorktree "/r"] ∧
    (runFrom initModel (traceC1.take 5)).1.confirming = true ∧
    (runFrom initModel (traceC1.take 5)).1.rows.map (fun r => r.Worktree.Path) = ["/r"] ∧
    (runFrom initModel (traceC1.take 5)).1.cursor = 0 ∧
    (runFrom initModel (traceC1.take 4)).1.message =
      "Delete worktree \x27featB\x27? Press d to confirm, any other key to cancel" := by
  refine ⟨by decide, by decide, by decide, by decide, by decide⟩

end tui

end GitArborist
